import Mathlib

/-!
# ptcollab: wire protocol (protocol/RemoteAction.h), sequencing server
(server/SequencingServer.cpp) and the velocity and playhead arithmetic of
KeyboardEditor.cpp

A shallow embedding of the collaboration core and of two computations of the editor.  `QDataStream` is the Qt class the
codecs are written against; it is embedded as a byte buffer plus the sticky status
flag, with Qt's default big-endian fixed-width integers.
-/

namespace PtCollab

/-! ## QDataStream -/

/-- One octet on the wire. -/
abbrev Byte := Fin 256

/-- The enum QDataStream::Status. -/
inductive Status where
  | Ok
  | ReadPastEnd
  | ReadCorruptData
  | WriteFailed
deriving DecidableEq, Repr

/-- Reading side of a QDataStream: the bytes the device still holds and the status. -/
structure QDataStream where
  dev : List Byte
  status : Status
deriving DecidableEq, Repr

/-- QDataStream::setStatus: only the first error is kept. -/
def QDataStream.setStatus (s : QDataStream) (st : Status) : QDataStream :=
  if s.status = Status.Ok then { s with status := st } else s

/-- QDataStream::readBlock: takes `len` bytes off the device; when fewer are left the
device is drained and the status becomes ReadPastEnd. -/
def QDataStream.readBlock (s : QDataStream) (len : Nat) : Option (List Byte) × QDataStream :=
  if len ≤ s.dev.length then
    (some (s.dev.take len), { s with dev := s.dev.drop len })
  else
    (none, ({ s with dev := [] } : QDataStream).setStatus Status.ReadPastEnd)

/-- The `w` low-order base-256 digits of `n`, most significant first. -/
def beBytes : Nat → Nat → List Byte
  | 0, _ => []
  | w + 1, n => ⟨(n / 256 ^ w) % 256, Nat.mod_lt _ (by decide)⟩ :: beBytes w n

/-- The number a big-endian byte string denotes. -/
def beValue (bs : List Byte) : Nat :=
  bs.foldl (fun acc b => acc * 256 + b.val) 0

/-- Two's complement reading of a `bits`-bit pattern. -/
def toSigned (bits : Nat) (v : Nat) : Int :=
  if v < 2 ^ (bits - 1) then (v : Int) else (v : Int) - 2 ^ bits

/-- Two's complement pattern of an integer in `bits` bits (the C++ narrowing cast). -/
def toPattern (bits : Nat) (v : Int) : Nat :=
  (v % 2 ^ bits).toNat

/-- The operator `out << quint64`. -/
def writeUInt64 (out : List Byte) (v : Nat) : List Byte := out ++ beBytes 8 v

/-- The operator `out << qint64`. -/
def writeInt64 (out : List Byte) (v : Int) : List Byte := out ++ beBytes 8 (toPattern 64 v)

/-- The operator `out << qint32`. -/
def writeInt32 (out : List Byte) (v : Int) : List Byte := out ++ beBytes 4 (toPattern 32 v)

/-- The operator `out << qint8`. -/
def writeInt8 (out : List Byte) (v : Int) : List Byte := out ++ beBytes 1 (toPattern 8 v)

/-- The operator `in >> quint64`: the target is 0 when the read falls short. -/
def readUInt64 (s : QDataStream) : Nat × QDataStream :=
  match s.readBlock 8 with
  | (some bs, s') => (beValue bs, s')
  | (none, s') => (0, s')

/-- The operator `in >> qint64`. -/
def readInt64 (s : QDataStream) : Int × QDataStream :=
  match s.readBlock 8 with
  | (some bs, s') => (toSigned 64 (beValue bs), s')
  | (none, s') => (0, s')

/-- The operator `in >> qint32`. -/
def readInt32 (s : QDataStream) : Int × QDataStream :=
  match s.readBlock 4 with
  | (some bs, s') => (toSigned 32 (beValue bs), s')
  | (none, s') => (0, s')

/-- The operator `in >> qint8`. -/
def readInt8 (s : QDataStream) : Int × QDataStream :=
  match s.readBlock 1 with
  | (some bs, s') => (toSigned 8 (beValue bs), s')
  | (none, s') => (0, s')

/-- Values a qint64 can hold. -/
def isInt64 (v : Int) : Prop := -2 ^ 63 ≤ v ∧ v < 2 ^ 63

/-- Values a qint32 can hold. -/
def isInt32 (v : Int) : Prop := -2 ^ 31 ≤ v ∧ v < 2 ^ 31

instance (v : Int) : Decidable (isInt64 v) := by unfold isInt64; infer_instance
instance (v : Int) : Decidable (isInt32 v) := by unfold isInt32; infer_instance

/-! ## Codecs of the payload types declared outside protocol/RemoteAction.h -/

/-- The pair `operator<<` / `operator>>` of a payload type whose declaration lives in
another header (Action, EditState, QString).  `read` returns the value the target
holds afterwards. -/
structure Codec (α : Type) where
  write : List Byte → α → List Byte
  read : QDataStream → α × QDataStream

/-- What is assumed of such a codec: `<<` appends an encoding that depends on the value
only, `>>` gives the value back from an intact encoding and leaves the rest of the
stream untouched, a cut-off encoding leaves the stream in an error status, and an
error status is never cleared. -/
structure Codec.Lawful {α : Type} (c : Codec α) : Prop where
  write_append : ∀ out x, c.write out x = out ++ c.write [] x
  round_trip : ∀ x rest, c.read ⟨c.write [] x ++ rest, Status.Ok⟩ = (x, ⟨rest, Status.Ok⟩)
  truncated : ∀ x p, p <+: c.write [] x → p ≠ c.write [] x →
    (c.read ⟨p, Status.Ok⟩).2.status ≠ Status.Ok
  sticky : ∀ s, s.status ≠ Status.Ok → (c.read s).2.status ≠ Status.Ok

/-! ## protocol/RemoteAction.h -/

section RemoteAction

variable {Action EditState QString : Type}

/-- The struct EditAction: `qint64 idx; std::vector<Action> action;`. -/
structure EditAction (Action : Type) where
  idx : Int
  action : List Action
deriving DecidableEq, Repr

/-- The operator `out << EditAction`: idx, the size cast to quint64, then each element. -/
def EditAction.write (cA : Codec Action) (out : List Byte) (r : EditAction Action) : List Byte :=
  let out1 := writeUInt64 (writeInt64 out r.idx) (r.action.length % 2 ^ 64)
  r.action.foldl cA.write out1

/-- The loop `for (size_t i = 0; i < size; ++i) in >> r.action[i];` over the vector that
`r.action.resize(size)` has just given `size` slots: slot after slot is read from the
stream, whatever the stream still holds. -/
def readElements (cA : Codec Action) : Nat → QDataStream → List Action × QDataStream
  | 0, s => ([], s)
  | n + 1, s =>
    let r := cA.read s
    let rs := readElements cA n r.2
    (r.1 :: rs.1, rs.2)

/-- The operator `in >> EditAction` on the path where `r.action.resize(size)` returns;
EditAction.readOrThrow below is the operator with the throwing path of resize. -/
def EditAction.read (cA : Codec Action) (s : QDataStream) : EditAction Action × QDataStream :=
  let r1 := readInt64 s
  let r2 := readUInt64 r1.2
  let r3 := readElements cA r2.1 r2.2
  (⟨r1.1, r3.1⟩, r3.2)

/-- The exceptions of `std::vector::resize`. -/
inductive ResizeError where
  | length_error
  | bad_alloc
deriving DecidableEq, Repr

/-- What decides whether `r.action.resize(size)` returns: max_size() of the vector and
the largest element count the free store can hold at the time of the call. -/
structure Allocator where
  max_size : Nat
  available : Nat
deriving DecidableEq, Repr

/-- The call `r.action.resize(size)`: std::length_error for a size above max_size(),
std::bad_alloc when the storage cannot be allocated, and otherwise it returns. -/
def Allocator.resize (al : Allocator) (size : Nat) : Except ResizeError Unit :=
  if size > al.max_size then .error .length_error
  else if size > al.available then .error .bad_alloc
  else .ok ()

/-- The operator `in >> EditAction` with the exceptions of `r.action.resize(size)`: idx
and size are read, resize is called with the size as read off the stream, and only when
it returns are the elements read. -/
def EditAction.readOrThrow (al : Allocator) (cA : Codec Action) (s : QDataStream) :
    Except ResizeError (EditAction Action × QDataStream) :=
  let r1 := readInt64 s
  let r2 := readUInt64 r1.2
  match al.resize r2.1 with
  | .error e => .error e
  | .ok _ =>
    let r3 := readElements cA r2.1 r2.2
    .ok (⟨r1.1, r3.1⟩, r3.2)

/-- The enum `UndoRedo { UNDO, REDO }`; an object of the enum stores an int. -/
structure UndoRedo where
  val : Int
deriving DecidableEq, Repr

/-- The enumerator UNDO. -/
def UndoRedo.UNDO : UndoRedo := ⟨0⟩

/-- The enumerator REDO. -/
def UndoRedo.REDO : UndoRedo := ⟨1⟩

/-- The operator `out << UndoRedo`: `out << (qint8)a`. -/
def UndoRedo.write (out : List Byte) (a : UndoRedo) : List Byte :=
  writeInt8 out a.val

/-- The operator `in >> UndoRedo`: `in >> *(qint8 *)(&a)` stores the byte read over the
first byte of `a` and leaves the other bytes of the int as they were (little-endian
layout: the first byte is the low-order one). -/
def UndoRedo.read (s : QDataStream) (a : UndoRedo) : UndoRedo × QDataStream :=
  let r := readInt8 s
  (⟨a.val - a.val % 256 + r.1 % 256⟩, r.2)

/-- The struct AddUnit: `qint32 woice_id; QString woice_name; QString unit_name;`. -/
structure AddUnit (QString : Type) where
  woice_id : Int
  woice_name : QString
  unit_name : QString
deriving DecidableEq, Repr

/-- The operator `out << AddUnit`. -/
def AddUnit.write (cQ : Codec QString) (out : List Byte) (a : AddUnit QString) : List Byte :=
  cQ.write (cQ.write (writeInt32 out a.woice_id) a.woice_name) a.unit_name

/-- The operator `in >> AddUnit`. -/
def AddUnit.read (cQ : Codec QString) (s : QDataStream) : AddUnit QString × QDataStream :=
  let r1 := readInt32 s
  let r2 := cQ.read r1.2
  let r3 := cQ.read r2.2
  (⟨r1.1, r2.1, r3.1⟩, r3.2)

/-- The struct RemoveUnit: `qint32 unit_id;`. -/
structure RemoveUnit where
  unit_id : Int
deriving DecidableEq, Repr

/-- The operator `out << RemoveUnit`. -/
def RemoveUnit.write (out : List Byte) (a : RemoveUnit) : List Byte :=
  writeInt32 out a.unit_id

/-- The operator `in >> RemoveUnit`. -/
def RemoveUnit.read (s : QDataStream) : RemoveUnit × QDataStream :=
  let r := readInt32 s
  (⟨r.1⟩, r.2)

/-- The alias `ClientAction = std::variant<EditAction, EditState, UndoRedo, AddUnit,
RemoveUnit>`. -/
inductive ClientAction (Action EditState QString : Type) where
  | editAction (a : EditAction Action)
  | editState (a : EditState)
  | undoRedo (a : UndoRedo)
  | addUnit (a : AddUnit QString)
  | removeUnit (a : RemoveUnit)
deriving DecidableEq, Repr

/-- The struct NewSession: `QString username;`. -/
structure NewSession (QString : Type) where
  username : QString
deriving DecidableEq, Repr

/-- The operator `out << NewSession`. -/
def NewSession.write (cQ : Codec QString) (out : List Byte) (a : NewSession QString) : List Byte :=
  cQ.write out a.username

/-- The operator `in >> NewSession`. -/
def NewSession.read (cQ : Codec QString) (s : QDataStream) : NewSession QString × QDataStream :=
  let r := cQ.read s
  (⟨r.1⟩, r.2)

/-- The member `std::variant<ClientAction, NewSession, DeleteSession> action` of
ServerAction; DeleteSession is a std::monostate and has no fields. -/
inductive ServerPayload (Action EditState QString : Type) where
  | clientAction (a : ClientAction Action EditState QString)
  | newSession (a : NewSession QString)
  | deleteSession
deriving DecidableEq, Repr

/-- The struct ServerAction: `qint64 uid;` and the variant `action`. -/
structure ServerAction (Action EditState QString : Type) where
  uid : Int
  action : ServerPayload Action EditState QString
deriving DecidableEq, Repr

/-- The member function ServerAction::shouldBeRecorded, whose body is `return true;`
under two TODO comments. -/
def ServerAction.shouldBeRecorded (_a : ServerAction Action EditState QString) : Bool :=
  true

/-- Modelled from the spec: the ProtocolError with which decoding a tagged union fails
on malformed input, a missing tag or one out of range. -/
inductive ProtocolError where
  | truncated
  | badTag (tag : Int)
deriving DecidableEq, Repr

/-- Modelled from the spec: the `operator<<` of std::variant, which
protocol/SerializeVariant.h declares and the sources do not hold, at the type
ClientAction.  The spec: a tagged union is a single-byte discriminant equal to the
zero-based declaration order (0 EditAction, 1 EditState, 2 UndoRedo, 3 AddUnit,
4 RemoveUnit) followed by that variant's own encoding. -/
def ClientAction.write (cA : Codec Action) (cE : Codec EditState) (cQ : Codec QString)
    (out : List Byte) : ClientAction Action EditState QString → List Byte
  | .editAction a => EditAction.write cA (writeInt8 out 0) a
  | .editState a => cE.write (writeInt8 out 1) a
  | .undoRedo a => UndoRedo.write (writeInt8 out 2) a
  | .addUnit a => AddUnit.write cQ (writeInt8 out 3) a
  | .removeUnit a => RemoveUnit.write (writeInt8 out 4) a

/-- Modelled from the spec: the `operator>>` of std::variant from
protocol/SerializeVariant.h at the type ClientAction.  The tag byte selects the
alternative, which is value-initialised and then read with its own operator; a missing
or out-of-range tag is the spec's ProtocolError. -/
def ClientAction.read (cA : Codec Action) (cE : Codec EditState) (cQ : Codec QString)
    (s : QDataStream) : Except ProtocolError (ClientAction Action EditState QString × QDataStream) :=
  let t := readInt8 s
  if t.2.status ≠ Status.Ok then .error .truncated
  else if t.1 = 0 then
    let r := EditAction.read cA t.2
    .ok (.editAction r.1, r.2)
  else if t.1 = 1 then
    let r := cE.read t.2
    .ok (.editState r.1, r.2)
  else if t.1 = 2 then
    let r := UndoRedo.read t.2 ⟨0⟩
    .ok (.undoRedo r.1, r.2)
  else if t.1 = 3 then
    let r := AddUnit.read cQ t.2
    .ok (.addUnit r.1, r.2)
  else if t.1 = 4 then
    let r := RemoveUnit.read t.2
    .ok (.removeUnit r.1, r.2)
  else .error (.badTag t.1)

/-- Modelled from the spec: the `operator<<` of std::variant from
protocol/SerializeVariant.h at the type of ServerAction::action (0 ClientAction,
1 NewSession, 2 DeleteSession); the monostate DeleteSession writes nothing after its
tag (RemoteAction.h, `operator<<(QDataStream &, const std::monostate &)`). -/
def ServerPayload.write (cA : Codec Action) (cE : Codec EditState) (cQ : Codec QString)
    (out : List Byte) : ServerPayload Action EditState QString → List Byte
  | .clientAction a => ClientAction.write cA cE cQ (writeInt8 out 0) a
  | .newSession a => NewSession.write cQ (writeInt8 out 1) a
  | .deleteSession => writeInt8 out 2

/-- Modelled from the spec: the `operator>>` of std::variant from
protocol/SerializeVariant.h at the type of ServerAction::action. -/
def ServerPayload.read (cA : Codec Action) (cE : Codec EditState) (cQ : Codec QString)
    (s : QDataStream) : Except ProtocolError (ServerPayload Action EditState QString × QDataStream) :=
  let t := readInt8 s
  if t.2.status ≠ Status.Ok then .error .truncated
  else if t.1 = 0 then
    match ClientAction.read cA cE cQ t.2 with
    | .ok r => .ok (.clientAction r.1, r.2)
    | .error e => .error e
  else if t.1 = 1 then
    let r := NewSession.read cQ t.2
    .ok (.newSession r.1, r.2)
  else if t.1 = 2 then .ok (.deleteSession, t.2)
  else .error (.badTag t.1)

/-- The operator `out << ServerAction`: `out << a.uid << a.action`. -/
def ServerAction.write (cA : Codec Action) (cE : Codec EditState) (cQ : Codec QString)
    (out : List Byte) (a : ServerAction Action EditState QString) : List Byte :=
  ServerPayload.write cA cE cQ (writeInt64 out a.uid) a.action

/-- The operator `in >> ServerAction`: `in >> a.uid >> a.action`. -/
def ServerAction.read (cA : Codec Action) (cE : Codec EditState) (cQ : Codec QString)
    (s : QDataStream) : Except ProtocolError (ServerAction Action EditState QString × QDataStream) :=
  let r := readInt64 s
  match ServerPayload.read cA cE cQ r.2 with
  | .ok p => .ok (⟨r.1, p.1⟩, p.2)
  | .error e => .error e

/-- An EditAction a C++ object can hold: idx is a qint64, the size a size_t. -/
def EditAction.Representable (r : EditAction Action) : Prop :=
  isInt64 r.idx ∧ r.action.length < 2 ^ 64

/-- An UndoRedo that is one of its two enumerators. -/
def UndoRedo.Representable (a : UndoRedo) : Prop :=
  a = UndoRedo.UNDO ∨ a = UndoRedo.REDO

/-- A ClientAction whose integer fields fit their C++ types. -/
def ClientAction.Representable : ClientAction Action EditState QString → Prop
  | .editAction a => a.Representable
  | .editState _ => True
  | .undoRedo a => a.Representable
  | .addUnit a => isInt32 a.woice_id
  | .removeUnit a => isInt32 a.unit_id

/-- A ServerAction whose integer fields fit their C++ types. -/
def ServerAction.Representable (a : ServerAction Action EditState QString) : Prop :=
  isInt64 a.uid ∧
    match a.action with
    | .clientAction c => c.Representable
    | .newSession _ => True
    | .deleteSession => True

end RemoteAction

/-! ## server/SequencingServer.cpp -/

section Server

variable {α : Type}

/-- Modelled from the spec: the class ServerSession, which server/ServerSession.h
declares and the sources do not hold.  The spec's session record is a uid fixed at
connect, the connection and a connectivity flag; `writeFails` says that the transport
is broken without this having been observed yet, `bootstrap` is the history replayed to
the client at connect, and `written` lists the arguments of the calls to
writeRemoteAction, oldest first. -/
structure ServerSession (α : Type) where
  uid : Nat
  connected : Bool
  writeFails : Bool
  bootstrap : List α
  written : List α
deriving DecidableEq, Repr

/-- Modelled from the spec: the constructor called as
`new ServerSession(this, conn, m_file, m_history, uid)`: a session bound to `uid` on a
connection that was just accepted, to which the recorded history is replayed. -/
def ServerSession.new (history : List α) (uid : Nat) : ServerSession α :=
  { uid := uid, connected := true, writeFails := false, bootstrap := history, written := [] }

/-- Modelled from the spec: ServerSession::isConnected, true until the transport is
observed closed or erroring. -/
def ServerSession.isConnected (s : ServerSession α) : Bool :=
  s.connected

/-- Modelled from the spec: ServerSession::writeRemoteAction, which writes the envelope
to the transport; a write failure flips the connectivity to false and raises nothing. -/
def ServerSession.writeRemoteAction (s : ServerSession α) (action : α) : ServerSession α :=
  { s with written := s.written ++ [action], connected := s.connected && !s.writeFails }

/-- How a broadcast pass can leave defined behaviour. -/
inductive Fault where
  | endDereferenced
  | fuelExhausted
deriving DecidableEq, Repr

/-- The members of SequencingServer that the accept and broadcast paths use.  The
envelope type `α` stands for RemoteActionWithUid, whose declaration is not among the
sources; m_next_uid is unbounded (overflow aside). -/
structure SequencingServer (α : Type) where
  m_sessions : List (ServerSession α)
  m_history : List α
  m_next_uid : Nat
deriving DecidableEq, Repr

/-- The constructor's initialiser list: `m_sessions()`, a default m_history and
`m_next_uid(0)`, the file opened and the port bound. -/
def SequencingServer.init : SequencingServer α :=
  { m_sessions := [], m_history := [], m_next_uid := 0 }

/-- The session that newClient constructs:
`new ServerSession(this, conn, m_file, m_history, m_next_uid++)`. -/
def SequencingServer.newSession (st : SequencingServer α) : ServerSession α :=
  ServerSession.new st.m_history st.m_next_uid

/-- The slot SequencingServer::newClient: constructs the session with the current
m_next_uid, increments m_next_uid, and pushes the session to the back of m_sessions. -/
def SequencingServer.newClient (st : SequencingServer α) : SequencingServer α :=
  { st with m_sessions := st.m_sessions ++ [st.newSession], m_next_uid := st.m_next_uid + 1 }

/-- The inner loop `while (!(*it)->isConnected()) { delete *it; it = m_sessions.erase(it); }`
on the part of the list from `it` on.  Each erase leaves `it` on the next element; when
the last element has been erased `it` is `end()` and the loop condition dereferences
it. -/
def whileDisconnected : List (ServerSession α) → Except Fault (List (ServerSession α))
  | [] => .error .endDereferenced
  | s :: rest => if !s.isConnected then whileDisconnected rest else .ok (s :: rest)

/-- The loop `for (auto it = m_sessions.begin(); it != m_sessions.end(); ++it)` of
broadcastMessage.  The iterator is the split of the list into the part before `it` and
the part from `it` on; `fuel` bounds the number of passes through the body. -/
def broadcastLoop (action : α) :
    Nat → List (ServerSession α) → List (ServerSession α) → Nat →
      Except Fault (List (ServerSession α) × Nat)
  | _, before, [], sent => .ok (before, sent)
  | 0, _, _ :: _, _ => .error .fuelExhausted
  | fuel + 1, before, s :: rest, sent =>
    match whileDisconnected (s :: rest) with
    | .error e => .error e
    | .ok [] => .ok (before, sent)
    | .ok (t :: rest') =>
      broadcastLoop action fuel (before ++ [t.writeRemoteAction action]) rest' (sent + 1)

/-- The slot SequencingServer::broadcastMessage: one pass over m_sessions from
`begin()`, with as much fuel as the list has elements. -/
def SequencingServer.broadcastMessage (st : SequencingServer α) (action : α) :
    Except Fault (SequencingServer α) :=
  match broadcastLoop action st.m_sessions.length [] st.m_sessions 0 with
  | .ok r => .ok { st with m_sessions := r.1 }
  | .error e => .error e

/-- The number `sent` that broadcastMessage logs when the pass completes. -/
def SequencingServer.sentCount (st : SequencingServer α) (action : α) : Option Nat :=
  match broadcastLoop action st.m_sessions.length [] st.m_sessions 0 with
  | .ok r => some r.2
  | .error _ => none

/-- Whether the list is non-empty and its last session is disconnected. -/
def endsDisconnected (l : List (ServerSession α)) : Bool :=
  match l.getLast? with
  | some s => !s.isConnected
  | none => false

/-- What happens to a server between and in its slots: a connection is accepted, a
session's message is broadcast, or a session's transport is seen closed or silently
breaks. -/
inductive Event (α : Type) where
  | newClient
  | broadcastMessage (action : α)
  | transportClosed (uid : Nat)
  | transportBroken (uid : Nat)
deriving DecidableEq, Repr

/-- Modelled from the spec: the transport of the session with this uid is observed
closed or erroring, after which isConnected() is false. -/
def SequencingServer.transportClosed (st : SequencingServer α) (uid : Nat) : SequencingServer α :=
  { st with m_sessions :=
      st.m_sessions.map fun s => if s.uid = uid then { s with connected := false } else s }

/-- Modelled from the spec: the transport of the session with this uid breaks without
this being observed; the next write on it fails. -/
def SequencingServer.transportBroken (st : SequencingServer α) (uid : Nat) : SequencingServer α :=
  { st with m_sessions :=
      st.m_sessions.map fun s => if s.uid = uid then { s with writeFails := true } else s }

/-- One event applied to the server. -/
def SequencingServer.step (st : SequencingServer α) : Event α → Except Fault (SequencingServer α)
  | .newClient => .ok st.newClient
  | .broadcastMessage action => st.broadcastMessage action
  | .transportClosed uid => .ok (st.transportClosed uid)
  | .transportBroken uid => .ok (st.transportBroken uid)

/-- The server after a sequence of events, or the fault that ended the run. -/
def SequencingServer.run (st : SequencingServer α) : List (Event α) → Except Fault (SequencingServer α)
  | [] => .ok st
  | ev :: evs =>
    match st.step ev with
    | .ok st' => st'.run evs
    | .error e => .error e

/-- The uids of the sessions that the successive newClient calls of a run construct, in
call order; the run stops at a fault. -/
def SequencingServer.constructedUids (st : SequencingServer α) : List (Event α) → List Nat
  | [] => []
  | ev :: evs =>
    match st.step ev with
    | .ok st' =>
      match ev with
      | .newClient => st.newSession.uid :: st'.constructedUids evs
      | _ => st'.constructedUids evs
    | .error _ => []

/-- The number of newClient events in a sequence. -/
def newClientCalls : List (Event α) → Nat
  | [] => 0
  | .newClient :: evs => newClientCalls evs + 1
  | _ :: evs => newClientCalls evs

end Server

/-! ## KeyboardEditor.cpp -/

/-- The function `static int clamp(int lo, int x, int hi)`. -/
def clamp (lo x hi : Int) : Int :=
  if x < lo then lo
  else if x > hi then hi
  else x

/-- The constant `constexpr int EVENTMAX_VELOCITY = 128;`. -/
def EVENTMAX_VELOCITY : Int := 128

/-- The global `int pitchPerPx = 32;`, which nothing in the file assigns to. -/
def pitchPerPx : Int := 32

/-- The global `int pixelsPerVelocity = 3;`, which nothing in the file assigns to. -/
def pixelsPerVelocity : Int := 3

/-- The enum MouseEditState::Type, with the enumerators KeyboardEditor.cpp names. -/
inductive MouseEditType where
  | SetOn
  | DeleteOn
  | SetNote
  | DeleteNote
deriving DecidableEq, Repr

/-- The struct MouseEditState of KeyboardEditor.h, which the sources do not hold; the
fields are those that KeyboardEditor.cpp reads, in the order of the aggregate
`MouseEditState{type, clock, pitch, clock, pitch}` of mousePressEvent. -/
structure MouseEditState where
  type : MouseEditType
  start_clock : Int
  start_pitch : Int
  current_clock : Int
  current_pitch : Int
deriving DecidableEq, Repr

/-- The first argument that impliedVelocity passes to clamp:
`EVENTDEFAULT_VELOCITY + (current_pitch - start_pitch) / pitchPerPx / pixelsPerVelocity`
with the truncating division of int, for pitches whose difference does not overflow
int.  EVENTDEFAULT_VELOCITY is a macro of the pxtone headers, which the sources do not
hold, and is a parameter here. -/
def draggedVelocity (EVENTDEFAULT_VELOCITY : Int) (state : MouseEditState) : Int :=
  EVENTDEFAULT_VELOCITY +
    ((state.current_pitch - state.start_pitch).tdiv pitchPerPx).tdiv pixelsPerVelocity

/-- The function `int impliedVelocity(MouseEditState state)`: the call
`clamp(EVENTDEFAULT_VELOCITY + ..., 0, EVENTMAX_VELOCITY)`, arguments in the order in
which the source writes them. -/
def impliedVelocity (EVENTDEFAULT_VELOCITY : Int) (state : MouseEditState) : Int :=
  clamp (draggedVelocity EVENTDEFAULT_VELOCITY state) 0 EVENTMAX_VELOCITY

/-- The statement of KeyboardEditor::paintEvent
`if (clock > repeat_clock) clock = (clock - repeat_clock) % last_clock + repeat_clock;`:
the value of `clock` afterwards, with the truncating remainder of int; none when `%` is
evaluated with the divisor 0, which is undefined. -/
def wrapClock (clock repeat_clock last_clock : Int) : Option Int :=
  if clock > repeat_clock then
    if last_clock = 0 then none
    else some ((clock - repeat_clock).tmod last_clock + repeat_clock)
  else some clock

/-! ## Concrete payloads for worked examples -/

/-- A payload that travels as one byte: `<<` appends the byte, `>>` takes one byte off the
stream and leaves 0 in the target when none is left. -/
def byteCodec : Codec Byte where
  write := fun out b => out ++ [b]
  read := fun s =>
    match s.readBlock 1 with
    | (some (b :: _), s') => (b, s')
    | (_, s') => (0, s')

/-- The envelope `ServerAction{uid 7, ClientAction EditAction{idx 3, actions [1, 2]}}`. -/
def sampleEdit : ServerAction Byte Byte Byte :=
  ⟨7, .clientAction (.editAction ⟨3, [1, 2]⟩)⟩

/-- The envelope `ServerAction{uid 0, ClientAction EditState 9}`. -/
def sampleEditState : ServerAction Byte Byte Byte :=
  ⟨0, .clientAction (.editState 9)⟩

/-- A buffer cut off after the count: idx 5, count 2, and none of the two Actions. -/
def truncatedEditBytes : List Byte :=
  writeUInt64 (writeInt64 [] 5) 2

/-- Sixteen bytes that announce 2^62 Actions and hold none: idx 5, count 2^62. -/
def hugeCountBytes : List Byte :=
  writeUInt64 (writeInt64 [] 5) (2 ^ 62)

/-- A vector with max_size() 2^60 in a process that can still allocate 1000 elements. -/
def sampleAllocator : Allocator :=
  { max_size := 2 ^ 60, available := 1000 }

/-- The envelope type of the worked server examples. -/
abbrev Envelope := ServerAction Byte Byte Byte

/-- A session whose connection is up. -/
def liveSession (uid : Nat) : ServerSession Envelope :=
  ServerSession.new [] uid

/-- A session whose connection has been seen closed. -/
def deadSession (uid : Nat) : ServerSession Envelope :=
  { liveSession uid with connected := false }

/-- Two clients connected and the second one has left: sessions 0 (live) and 1 (dead). -/
def serverLastLeft : SequencingServer Envelope :=
  { m_sessions := [liveSession 0, deadSession 1], m_history := [], m_next_uid := 2 }

/-- The only session, uid 0, has left. -/
def serverAllLeft : SequencingServer Envelope :=
  { m_sessions := [deadSession 0], m_history := [], m_next_uid := 1 }

/-- The first of three clients has left: sessions 0 (dead), 1 and 2 (live). -/
def serverFirstLeft : SequencingServer Envelope :=
  { m_sessions := [deadSession 0, liveSession 1, liveSession 2], m_history := [],
    m_next_uid := 3 }

/-- A run: accept, accept, the first client leaves, a broadcast prunes it, accept. -/
def sampleRun : List (Event Envelope) :=
  [.newClient, .newClient, .transportClosed 0, .broadcastMessage sampleEdit, .newClient]

/-- Sessions 0 and 2 have left, session 1 is connected: `[0 dead, 1 live, 2 dead]`. -/
def serverEndsLeft : SequencingServer Envelope :=
  { m_sessions := [deadSession 0, liveSession 1, deadSession 2], m_history := [],
    m_next_uid := 3 }

/-- A drag that started at pitch 0 and has moved up by 2400 pitch units, 75 pixels. -/
def dragUp : MouseEditState :=
  { type := .SetOn, start_clock := 0, start_pitch := 0, current_clock := 480,
    current_pitch := 2400 }

/-! ## Fixed-width integers round-trip -/

theorem beBytes_length (w n : Nat) : (beBytes w n).length = w := by
  induction w with
  | zero => rfl
  | succ w ih => simp [beBytes, ih]

theorem foldl_beBytes (w n acc : Nat) :
    (beBytes w n).foldl (fun a (b : Byte) => a * 256 + b.val) acc = acc * 256 ^ w + n % 256 ^ w := by
  induction w generalizing acc with
  | zero => simp [beBytes, Nat.mod_one]
  | succ w ih =>
    simp only [beBytes, List.foldl_cons, ih]
    rw [Nat.mod_pow_succ]
    ring

theorem beValue_beBytes (w n : Nat) : beValue (beBytes w n) = n % 256 ^ w := by
  simp [beValue, foldl_beBytes]

theorem readBlock_append (bs rest : List Byte) (st : Status) (len : Nat) (h : bs.length = len) :
    QDataStream.readBlock ⟨bs ++ rest, st⟩ len = (some bs, ⟨rest, st⟩) := by
  subst h
  simp [QDataStream.readBlock]

theorem readBlock_short (s : QDataStream) (len : Nat) (h : s.dev.length < len) :
    s.readBlock len = (none, ({ s with dev := [] } : QDataStream).setStatus Status.ReadPastEnd) := by
  simp [QDataStream.readBlock, Nat.not_le.mpr h]

theorem toSigned_toPattern_64 (v : Int) (h : isInt64 v) :
    toSigned 64 (toPattern 64 v % 256 ^ 8) = v := by
  obtain ⟨h1, h2⟩ := h
  unfold toSigned toPattern
  norm_num at h1 h2 ⊢
  omega

theorem toSigned_toPattern_32 (v : Int) (h : isInt32 v) :
    toSigned 32 (toPattern 32 v % 256 ^ 4) = v := by
  obtain ⟨h1, h2⟩ := h
  unfold toSigned toPattern
  norm_num at h1 h2 ⊢
  omega

theorem readInt64_writeInt64 (v : Int) (h : isInt64 v) (rest : List Byte) (st : Status) :
    readInt64 ⟨writeInt64 [] v ++ rest, st⟩ = (v, ⟨rest, st⟩) := by
  simp only [readInt64, writeInt64, List.nil_append]
  rw [readBlock_append _ _ _ _ (beBytes_length _ _)]
  simp only [beValue_beBytes, toSigned_toPattern_64 v h]

theorem readInt32_writeInt32 (v : Int) (h : isInt32 v) (rest : List Byte) (st : Status) :
    readInt32 ⟨writeInt32 [] v ++ rest, st⟩ = (v, ⟨rest, st⟩) := by
  simp only [readInt32, writeInt32, List.nil_append]
  rw [readBlock_append _ _ _ _ (beBytes_length _ _)]
  simp only [beValue_beBytes, toSigned_toPattern_32 v h]

theorem readUInt64_writeUInt64 (n : Nat) (h : n < 2 ^ 64) (rest : List Byte) (st : Status) :
    readUInt64 ⟨writeUInt64 [] n ++ rest, st⟩ = (n, ⟨rest, st⟩) := by
  simp only [readUInt64, writeUInt64, List.nil_append]
  rw [readBlock_append _ _ _ _ (beBytes_length _ _)]
  have : n % 256 ^ 8 = n := Nat.mod_eq_of_lt (by norm_num at h ⊢; exact h)
  simp only [beValue_beBytes, this]

theorem readInt8_tag (t : Nat) (h : t < 128) (rest : List Byte) (st : Status) :
    readInt8 ⟨writeInt8 [] (t : Int) ++ rest, st⟩ = ((t : Int), ⟨rest, st⟩) := by
  simp only [readInt8, writeInt8, List.nil_append]
  rw [readBlock_append _ _ _ _ (beBytes_length _ _)]
  simp only [beValue_beBytes]
  have : toSigned 8 (toPattern 8 (t : Int) % 256 ^ 1) = (t : Int) := by
    unfold toSigned toPattern
    norm_num
    omega
  rw [this]

/-! ## What the writers append -/

section Layout

variable {Action EditState QString : Type}

theorem beBytes_mod (w n : Nat) : beBytes w (n % 256 ^ w) = beBytes w n := by
  have key : ∀ k, k ≤ w → beBytes k (n % 256 ^ w) = beBytes k n := by
    intro k
    induction k with
    | zero => intro _; rfl
    | succ k ih =>
      intro hk
      simp only [beBytes, List.cons.injEq, Fin.mk.injEq]
      refine ⟨?_, ih (by omega)⟩
      obtain ⟨d, rfl⟩ : ∃ d, w = k + 1 + d := ⟨w - (k + 1), by omega⟩
      have e : 256 ^ (k + 1 + d) = 256 ^ k * (256 * 256 ^ d) := by ring
      rw [e, Nat.mod_mul_right_div_self, Nat.mod_mod_of_dvd _ (Dvd.intro _ rfl)]
  exact key w le_rfl

theorem foldl_write (cA : Codec Action) (hA : ∀ out x, cA.write out x = out ++ cA.write [] x)
    (l : List Action) (out : List Byte) :
    l.foldl cA.write out = out ++ (l.map (cA.write [])).flatten := by
  induction l generalizing out with
  | nil => simp
  | cons x l ih =>
    rw [List.foldl_cons, ih, hA out x]
    simp [List.append_assoc]

theorem EditAction_write_eq (cA : Codec Action)
    (hA : ∀ out x, cA.write out x = out ++ cA.write [] x) (out : List Byte)
    (e : EditAction Action) :
    EditAction.write cA out e =
      out ++ (writeInt64 [] e.idx ++ (writeUInt64 [] e.action.length ++
        (e.action.map (cA.write [])).flatten)) := by
  have h64 : (2 : Nat) ^ 64 = 256 ^ 8 := by norm_num
  simp only [EditAction.write, foldl_write cA hA, writeUInt64, writeInt64, List.nil_append,
    h64, beBytes_mod, List.append_assoc]

theorem UndoRedo_write_eq (out : List Byte) (a : UndoRedo) :
    UndoRedo.write out a = out ++ UndoRedo.write [] a := by
  simp [UndoRedo.write, writeInt8]

theorem AddUnit_write_eq (cQ : Codec QString)
    (hQ : ∀ out x, cQ.write out x = out ++ cQ.write [] x) (out : List Byte)
    (a : AddUnit QString) :
    AddUnit.write cQ out a =
      out ++ (writeInt32 [] a.woice_id ++ (cQ.write [] a.woice_name ++ cQ.write [] a.unit_name)) := by
  simp only [AddUnit.write]
  rw [hQ _ a.unit_name, hQ _ a.woice_name]
  simp [writeInt32, List.append_assoc]

theorem EditAction_write_append (cA : Codec Action)
    (hA : ∀ out x, cA.write out x = out ++ cA.write [] x) (out : List Byte)
    (e : EditAction Action) :
    EditAction.write cA out e = out ++ EditAction.write cA [] e := by
  rw [EditAction_write_eq cA hA out, EditAction_write_eq cA hA []]
  simp

theorem AddUnit_write_append (cQ : Codec QString)
    (hQ : ∀ out x, cQ.write out x = out ++ cQ.write [] x) (out : List Byte)
    (a : AddUnit QString) :
    AddUnit.write cQ out a = out ++ AddUnit.write cQ [] a := by
  rw [AddUnit_write_eq cQ hQ out, AddUnit_write_eq cQ hQ []]
  simp

theorem RemoveUnit_write_append (out : List Byte) (a : RemoveUnit) :
    RemoveUnit.write out a = out ++ RemoveUnit.write [] a := by
  simp [RemoveUnit.write, writeInt32]

theorem ClientAction_write_eq (cA : Codec Action) (cE : Codec EditState) (cQ : Codec QString)
    (hA : ∀ out x, cA.write out x = out ++ cA.write [] x)
    (hE : ∀ out x, cE.write out x = out ++ cE.write [] x)
    (hQ : ∀ out x, cQ.write out x = out ++ cQ.write [] x)
    (out : List Byte) (a : ClientAction Action EditState QString) :
    ClientAction.write cA cE cQ out a = out ++ ClientAction.write cA cE cQ [] a := by
  cases a with
  | editAction e =>
    simp only [ClientAction.write]
    rw [EditAction_write_eq cA hA (writeInt8 out 0), EditAction_write_eq cA hA (writeInt8 [] 0)]
    simp [writeInt8, List.append_assoc]
  | editState e =>
    simp only [ClientAction.write]
    rw [hE (writeInt8 out 1), hE (writeInt8 [] 1)]
    simp [writeInt8, List.append_assoc]
  | undoRedo u =>
    simp only [ClientAction.write]
    rw [UndoRedo_write_eq (writeInt8 out 2), UndoRedo_write_eq (writeInt8 [] 2)]
    simp [writeInt8, List.append_assoc]
  | addUnit u =>
    simp only [ClientAction.write]
    rw [AddUnit_write_eq cQ hQ (writeInt8 out 3), AddUnit_write_eq cQ hQ (writeInt8 [] 3)]
    simp [writeInt8, List.append_assoc]
  | removeUnit u =>
    simp [ClientAction.write, RemoveUnit.write, writeInt8, writeInt32, List.append_assoc]

end Layout

/-! ## Decoding an intact encoding -/

section RoundTrip

variable {Action EditState QString : Type}

theorem readElements_round_trip (cA : Codec Action) (hA : cA.Lawful) (l : List Action)
    (rest : List Byte) :
    readElements cA l.length ⟨(l.map (cA.write [])).flatten ++ rest, Status.Ok⟩ =
      (l, ⟨rest, Status.Ok⟩) := by
  induction l with
  | nil => simp [readElements]
  | cons x l ih =>
    simp only [List.length_cons, List.map_cons, List.flatten_cons, List.append_assoc,
      readElements, hA.round_trip, ih]

theorem EditAction_read_write (cA : Codec Action) (hA : cA.Lawful) (e : EditAction Action)
    (he : e.Representable) (rest : List Byte) :
    EditAction.read cA ⟨EditAction.write cA [] e ++ rest, Status.Ok⟩ = (e, ⟨rest, Status.Ok⟩) := by
  rw [EditAction_write_eq cA hA.write_append]
  simp only [EditAction.read, List.nil_append, List.append_assoc]
  rw [readInt64_writeInt64 _ he.1]
  simp only []
  rw [readUInt64_writeUInt64 _ he.2]
  simp only [readElements_round_trip cA hA]

theorem UndoRedo_read_write (a : UndoRedo) (ha : a.Representable) (rest : List Byte) :
    UndoRedo.read ⟨UndoRedo.write [] a ++ rest, Status.Ok⟩ ⟨0⟩ = (a, ⟨rest, Status.Ok⟩) := by
  rcases ha with rfl | rfl
  · have h := readInt8_tag 0 (by decide) rest Status.Ok
    simp only [Nat.cast_zero] at h
    simp [UndoRedo.read, UndoRedo.write, UndoRedo.UNDO, h]
  · have h := readInt8_tag 1 (by decide) rest Status.Ok
    simp only [Nat.cast_one] at h
    simp [UndoRedo.read, UndoRedo.write, UndoRedo.REDO, h]

theorem AddUnit_read_write (cQ : Codec QString) (hQ : cQ.Lawful) (a : AddUnit QString)
    (ha : isInt32 a.woice_id) (rest : List Byte) :
    AddUnit.read cQ ⟨AddUnit.write cQ [] a ++ rest, Status.Ok⟩ = (a, ⟨rest, Status.Ok⟩) := by
  rw [AddUnit_write_eq cQ hQ.write_append]
  simp only [AddUnit.read, List.nil_append, List.append_assoc]
  rw [readInt32_writeInt32 _ ha]
  simp only [hQ.round_trip]

theorem RemoveUnit_read_write (a : RemoveUnit) (ha : isInt32 a.unit_id) (rest : List Byte) :
    RemoveUnit.read ⟨RemoveUnit.write [] a ++ rest, Status.Ok⟩ = (a, ⟨rest, Status.Ok⟩) := by
  simp only [RemoveUnit.read, RemoveUnit.write]
  rw [readInt32_writeInt32 _ ha]

theorem ClientAction_read_write (cA : Codec Action) (cE : Codec EditState) (cQ : Codec QString)
    (hA : cA.Lawful) (hE : cE.Lawful) (hQ : cQ.Lawful)
    (a : ClientAction Action EditState QString) (ha : a.Representable) (rest : List Byte) :
    ClientAction.read cA cE cQ ⟨ClientAction.write cA cE cQ [] a ++ rest, Status.Ok⟩ =
      .ok (a, ⟨rest, Status.Ok⟩) := by
  have t0 := fun r => readInt8_tag 0 (by decide) r Status.Ok
  have t1 := fun r => readInt8_tag 1 (by decide) r Status.Ok
  have t2 := fun r => readInt8_tag 2 (by decide) r Status.Ok
  have t3 := fun r => readInt8_tag 3 (by decide) r Status.Ok
  have t4 := fun r => readInt8_tag 4 (by decide) r Status.Ok
  simp only [Nat.cast_zero, Nat.cast_one, Nat.cast_ofNat] at t0 t1 t2 t3 t4
  cases a with
  | editAction e =>
    simp only [ClientAction.write, ClientAction.read]
    rw [EditAction_write_append cA hA.write_append, List.append_assoc, t0]
    simp [EditAction_read_write cA hA e ha]
  | editState e =>
    simp only [ClientAction.write, ClientAction.read]
    rw [hE.write_append, List.append_assoc, t1]
    simp [hE.round_trip]
  | undoRedo u =>
    simp only [ClientAction.write, ClientAction.read]
    rw [UndoRedo_write_eq, List.append_assoc, t2]
    simp [UndoRedo_read_write u ha]
  | addUnit u =>
    simp only [ClientAction.write, ClientAction.read]
    rw [AddUnit_write_append cQ hQ.write_append, List.append_assoc, t3]
    simp [AddUnit_read_write cQ hQ u ha]
  | removeUnit u =>
    simp only [ClientAction.write, ClientAction.read]
    rw [RemoveUnit_write_append, List.append_assoc, t4]
    simp [RemoveUnit_read_write u ha]

end RoundTrip

/-! ## The claims on the wire protocol -/

section Wire

variable {Action EditState QString : Type}

theorem readBlock_sticky (s : QDataStream) (len : Nat) (h : s.status ≠ Status.Ok) :
    (s.readBlock len).2.status ≠ Status.Ok := by
  unfold QDataStream.readBlock QDataStream.setStatus
  split <;> simp [h]

theorem byteCodec_lawful : byteCodec.Lawful where
  write_append := by intro out x; simp [byteCodec]
  round_trip := by intro x rest; simp [byteCodec, QDataStream.readBlock]
  truncated := by
    intro x p hp hne
    have hp0 : p = [] := by
      simp only [byteCodec, List.nil_append] at hp hne
      rcases p with _ | ⟨b, t⟩
      · rfl
      · exfalso
        obtain ⟨r, hr⟩ := hp
        simp only [List.cons_append, List.cons.injEq] at hr
        obtain ⟨hb, ht⟩ := hr
        have ht0 : t = [] := (List.append_eq_nil.mp ht).1
        exact hne (by rw [hb, ht0])
    subst hp0
    simp [byteCodec, QDataStream.readBlock, QDataStream.setStatus]
  sticky := by
    intro s h
    have h1 := readBlock_sticky s 1 h
    simp only [byteCodec]
    split <;> simp_all

/-- Claim C1.  Encoding a ServerAction with `operator<<` and decoding the bytes with
`operator>>` gives back the same envelope (uid, the alternative of `action`, the
alternative of a nested ClientAction and every payload field, an EditAction with any
number of actions included) and consumes exactly the bytes written, whenever the codecs
of Action, EditState and QString round-trip and the integer fields hold values of their
C++ types. -/
theorem ServerAction_round_trip (cA : Codec Action) (cE : Codec EditState) (cQ : Codec QString)
    (hA : cA.Lawful) (hE : cE.Lawful) (hQ : cQ.Lawful)
    (a : ServerAction Action EditState QString) (ha : a.Representable) (rest : List Byte) :
    ServerAction.read cA cE cQ ⟨ServerAction.write cA cE cQ [] a ++ rest, Status.Ok⟩ =
      .ok (a, ⟨rest, Status.Ok⟩) := by
  obtain ⟨uid, payload⟩ := a
  obtain ⟨hu, hp⟩ := ha
  have t0 := fun r => readInt8_tag 0 (by decide) r Status.Ok
  have t1 := fun r => readInt8_tag 1 (by decide) r Status.Ok
  have t2 := fun r => readInt8_tag 2 (by decide) r Status.Ok
  simp only [Nat.cast_zero, Nat.cast_one, Nat.cast_ofNat] at t0 t1 t2
  have hw := ClientAction_write_eq cA cE cQ hA.write_append hE.write_append hQ.write_append
  cases payload with
  | clientAction c =>
    simp only [ServerAction.write, ServerAction.read, ServerPayload.write, ServerPayload.read]
    rw [hw (writeInt8 (writeInt64 [] uid) 0)]
    have e : writeInt8 (writeInt64 [] uid) 0 = writeInt64 [] uid ++ writeInt8 [] 0 := by
      simp [writeInt8]
    rw [e, List.append_assoc, List.append_assoc, readInt64_writeInt64 _ hu]
    simp only [t0]
    simp [ClientAction_read_write cA cE cQ hA hE hQ c hp]
  | newSession n =>
    have e : ServerAction.write cA cE cQ [] ⟨uid, .newSession n⟩ =
        writeInt64 [] uid ++ (writeInt8 [] 1 ++ cQ.write [] n.username) := by
      show cQ.write (writeInt8 (writeInt64 [] uid) 1) n.username = _
      rw [hQ.write_append]
      simp [writeInt8]
    rw [e]
    unfold ServerAction.read ServerPayload.read
    rw [List.append_assoc, readInt64_writeInt64 _ hu]
    simp only [List.append_assoc, t1, NewSession.read, hQ.round_trip]
    simp
  | deleteSession =>
    have e : ServerAction.write cA cE cQ [] ⟨uid, .deleteSession⟩ =
        writeInt64 [] uid ++ writeInt8 [] 2 := by
      show writeInt8 (writeInt64 [] uid) 2 = _
      simp [writeInt8]
    rw [e]
    unfold ServerAction.read ServerPayload.read
    rw [List.append_assoc, readInt64_writeInt64 _ hu]
    simp only [t2]
    simp

/-- Claim C1 at `sampleEdit`, one-byte payloads, two trailing bytes left on the stream. -/
theorem ServerAction_round_trip_witness :
    sampleEdit.Representable ∧
      ServerAction.read byteCodec byteCodec byteCodec
          ⟨ServerAction.write byteCodec byteCodec byteCodec [] sampleEdit ++ [4, 5], Status.Ok⟩ =
        .ok (sampleEdit, ⟨[4, 5], Status.Ok⟩) :=
  have h : sampleEdit.Representable := by
    simp [sampleEdit, ServerAction.Representable, ClientAction.Representable,
      EditAction.Representable, isInt64]
  ⟨h, ServerAction_round_trip byteCodec byteCodec byteCodec byteCodec_lawful byteCodec_lawful
    byteCodec_lawful sampleEdit h [4, 5]⟩

/-- Claim C9.  The bytes `operator<<` appends for an EditAction are the eight big-endian
bytes of idx (two's complement), the eight big-endian bytes of the element count, and
the encodings of the elements in sequence order, with nothing between or after; the
first eight bytes denote idx and the next eight the size of the vector. -/
theorem EditAction_wire_layout (cA : Codec Action)
    (hA : ∀ out x, cA.write out x = out ++ cA.write [] x) (out : List Byte)
    (e : EditAction Action) (he : e.Representable) :
    EditAction.write cA out e =
        out ++ (beBytes 8 (toPattern 64 e.idx) ++ (beBytes 8 e.action.length ++
          (e.action.map (cA.write [])).flatten)) ∧
      toSigned 64 (beValue (beBytes 8 (toPattern 64 e.idx))) = e.idx ∧
      beValue (beBytes 8 e.action.length) = e.action.length := by
  refine ⟨?_, ?_, ?_⟩
  · rw [EditAction_write_eq cA hA]
    simp [writeInt64, writeUInt64]
  · rw [beValue_beBytes]
    exact toSigned_toPattern_64 _ he.1
  · rw [beValue_beBytes]
    exact Nat.mod_eq_of_lt (by have := he.2; norm_num at this ⊢; exact this)

/-- Claim C9 at the EditAction `{idx 3, actions [1, 2]}` with one-byte actions. -/
theorem EditAction_wire_layout_witness :
    (⟨3, [1, 2]⟩ : EditAction Byte).Representable ∧
      EditAction.write byteCodec [] (⟨3, [1, 2]⟩ : EditAction Byte) =
        [0, 0, 0, 0, 0, 0, 0, 3, 0, 0, 0, 0, 0, 0, 0, 2, 1, 2] :=
  have he : (⟨3, [1, 2]⟩ : EditAction Byte).Representable := by
    simp [EditAction.Representable, isInt64]
  ⟨he, (EditAction_wire_layout byteCodec byteCodec_lawful.write_append [] ⟨3, [1, 2]⟩ he).1.trans
    (by decide)⟩

/-- Claim C10.  The operator `out << UndoRedo` appends exactly one byte: 0 for UNDO,
1 for REDO, and a single byte for any value of the enum. -/
theorem UndoRedo_wire_encoding :
    (∀ out, UndoRedo.write out UndoRedo.UNDO = out ++ [0]) ∧
      (∀ out, UndoRedo.write out UndoRedo.REDO = out ++ [1]) ∧
      ∀ out a, ∃ b, UndoRedo.write out a = out ++ [b] := by
  refine ⟨fun out => ?_, fun out => ?_, fun out a => ?_⟩
  · show out ++ beBytes 1 (toPattern 8 0) = out ++ [0]
    rfl
  · show out ++ beBytes 1 (toPattern 8 1) = out ++ [1]
    rfl
  · exact ⟨_, rfl⟩

/-- Claim C5, as the code has it.  ServerAction::shouldBeRecorded answers true for every
envelope, whatever `action` holds. -/
theorem shouldBeRecorded_always (a : ServerAction Action EditState QString) :
    a.shouldBeRecorded = true := rfl

/-- Claim C5 fails as stated: the envelope of an EditState is to be recorded. -/
theorem shouldBeRecorded_editState :
    sampleEditState.action = .clientAction (.editState 9) ∧
      sampleEditState.shouldBeRecorded = true := by
  decide

/-- Claim C7, as the code has it.  With the target holding UNDO or REDO, `in >> UndoRedo`
on a stream that starts with the byte `b` consumes that byte, leaves the status Ok and
stores `b` as the value of the enum, whatever `b` is: 0 gives UNDO, 1 gives REDO, and
any other byte gives a value that is neither, without an error. -/
theorem UndoRedo_read_unchecked (b : Byte) (rest : List Byte) (a : UndoRedo)
    (ha : a.Representable) :
    UndoRedo.read ⟨b :: rest, Status.Ok⟩ a = (⟨(b.val : Int)⟩, ⟨rest, Status.Ok⟩) ∧
      (b = 0 → (UndoRedo.read ⟨b :: rest, Status.Ok⟩ a).1 = UndoRedo.UNDO) ∧
      (b = 1 → (UndoRedo.read ⟨b :: rest, Status.Ok⟩ a).1 = UndoRedo.REDO) ∧
      (b ≠ 0 → b ≠ 1 → ¬ (UndoRedo.read ⟨b :: rest, Status.Ok⟩ a).1.Representable) := by
  have key : UndoRedo.read ⟨b :: rest, Status.Ok⟩ a = (⟨(b.val : Int)⟩, ⟨rest, Status.Ok⟩) := by
    have hb := b.isLt
    have hr : readInt8 ⟨b :: rest, Status.Ok⟩ = (toSigned 8 b.val, ⟨rest, Status.Ok⟩) := by
      simp [readInt8, QDataStream.readBlock, beValue]
    have hs : toSigned 8 b.val % 256 = (b.val : Int) := by
      unfold toSigned
      norm_num
      split <;> omega
    have h0 : a.val - a.val % 256 = 0 := by
      rcases ha with rfl | rfl <;> decide
    simp only [UndoRedo.read, hr, hs, h0, zero_add]
  refine ⟨key, ?_, ?_, ?_⟩
  · rintro rfl
    rw [key]
    rfl
  · rintro rfl
    rw [key]
    rfl
  · intro h0 h1 hrep
    rw [key] at hrep
    have hv : ∀ n : Nat, b.val = n → b = ⟨n % 256, Nat.mod_lt _ (by decide)⟩ := by
      intro n hn
      apply Fin.ext
      simp only [← hn]
      exact (Nat.mod_eq_of_lt b.isLt).symm
    rcases hrep with h | h
    · have : (b.val : Int) = 0 := congrArg UndoRedo.val h
      exact h0 (hv 0 (by exact_mod_cast this))
    · have : (b.val : Int) = 1 := congrArg UndoRedo.val h
      exact h1 (hv 1 (by exact_mod_cast this))

/-- Claim C7 fails as stated: the byte 2 is decoded without an error, the stream stays
Ok and the enum holds 2, neither UNDO nor REDO. -/
theorem UndoRedo_read_tag_two :
    UndoRedo.read ⟨[2], Status.Ok⟩ UndoRedo.UNDO = (⟨2⟩, ⟨[], Status.Ok⟩) ∧
      (⟨2⟩ : UndoRedo) ≠ UndoRedo.UNDO ∧ (⟨2⟩ : UndoRedo) ≠ UndoRedo.REDO := by
  decide

/-- Claim C7 (as the code has it) at the byte 255 with the target holding REDO. -/
theorem UndoRedo_read_unchecked_witness :
    UndoRedo.REDO.Representable ∧
      UndoRedo.read ⟨[255, 1], Status.Ok⟩ UndoRedo.REDO = (⟨255⟩, ⟨[1], Status.Ok⟩) :=
  ⟨Or.inr rfl, (UndoRedo_read_unchecked 255 [1] UndoRedo.REDO (Or.inr rfl)).1⟩

theorem prefix_append_cases {α : Type} (p a b : List α) (h : p <+: a ++ b) :
    (p <+: a ∧ p ≠ a) ∨ ∃ q, p = a ++ q ∧ q <+: b := by
  rcases List.prefix_or_prefix_of_prefix h (List.prefix_append a b) with h1 | h2
  · by_cases e : p = a
    · right
      refine ⟨[], by simp [e], List.nil_prefix⟩
    · exact Or.inl ⟨h1, e⟩
  · obtain ⟨q, rfl⟩ := h2
    exact Or.inr ⟨q, rfl, (List.prefix_append_right_inj a).1 h⟩

theorem length_lt_of_strict_prefix {α : Type} (p a : List α) (h : p <+: a) (hne : p ≠ a) :
    p.length < a.length := by
  rcases Nat.lt_or_ge p.length a.length with hlt | hge
  · exact hlt
  · exact absurd (h.eq_of_length (Nat.le_antisymm h.length_le hge)) hne

theorem readInt64_short (p : List Byte) (h : p.length < 8) :
    readInt64 ⟨p, Status.Ok⟩ = (0, ⟨[], Status.ReadPastEnd⟩) := by
  have hb := readBlock_short ⟨p, Status.Ok⟩ 8 h
  simp only [readInt64, hb]
  rfl

theorem readUInt64_short (p : List Byte) (st : Status) (h : p.length < 8) :
    (readUInt64 ⟨p, st⟩).1 = 0 ∧ (readUInt64 ⟨p, st⟩).2.dev = [] ∧
      (readUInt64 ⟨p, st⟩).2.status ≠ Status.Ok := by
  have hb := readBlock_short ⟨p, st⟩ 8 h
  simp only [readUInt64, hb, QDataStream.setStatus]
  refine ⟨trivial, ?_, ?_⟩
  · split <;> rfl
  · split
    · simp
    · assumption

theorem readElements_length (cA : Codec Action) (n : Nat) (s : QDataStream) :
    (readElements cA n s).1.length = n := by
  induction n generalizing s with
  | zero => rfl
  | succ n ih => simp [readElements, ih]

theorem readElements_sticky (cA : Codec Action) (hA : cA.Lawful) (n : Nat) (s : QDataStream)
    (h : s.status ≠ Status.Ok) : (readElements cA n s).2.status ≠ Status.Ok := by
  induction n generalizing s with
  | zero => exact h
  | succ n ih => exact ih _ (hA.sticky s h)

theorem readElements_truncated (cA : Codec Action) (hA : cA.Lawful) (l : List Action)
    (p : List Byte) (hp : p <+: (l.map (cA.write [])).flatten)
    (hne : p ≠ (l.map (cA.write [])).flatten) :
    (readElements cA l.length ⟨p, Status.Ok⟩).2.status ≠ Status.Ok := by
  induction l generalizing p with
  | nil =>
    simp only [List.map_nil, List.flatten_nil, List.prefix_nil] at hp hne
    exact absurd hp hne
  | cons x l ih =>
    simp only [List.map_cons, List.flatten_cons] at hp hne
    rcases prefix_append_cases p _ _ hp with ⟨h1, h1ne⟩ | ⟨q, rfl, hq⟩
    · simp only [List.length_cons, readElements]
      exact readElements_sticky cA hA _ _ (hA.truncated x p h1 h1ne)
    · have hq' : q ≠ (l.map (cA.write [])).flatten := by
        rintro rfl
        exact hne rfl
      simp only [List.length_cons, readElements, hA.round_trip]
      exact ih q hq hq'

theorem EditAction_read_prefix (cA : Codec Action) (hA : cA.Lawful) (e : EditAction Action)
    (he : e.Representable) (p : List Byte) (hp : p <+: EditAction.write cA [] e)
    (hne : p ≠ EditAction.write cA [] e) :
    (EditAction.read cA ⟨p, Status.Ok⟩).2.status ≠ Status.Ok ∧
      (16 ≤ p.length → (EditAction.read cA ⟨p, Status.Ok⟩).1.idx = e.idx ∧
        (EditAction.read cA ⟨p, Status.Ok⟩).1.action.length = e.action.length) ∧
      (p.length < 16 → (EditAction.read cA ⟨p, Status.Ok⟩).1.action = []) := by
  rw [EditAction_write_eq cA hA.write_append, List.nil_append] at hp hne
  have hI : (writeInt64 [] e.idx).length = 8 := by simp [writeInt64, beBytes_length]
  have hC : (writeUInt64 [] e.action.length).length = 8 := by simp [writeUInt64, beBytes_length]
  rcases prefix_append_cases p _ _ hp with ⟨h1, h1ne⟩ | ⟨q, rfl, hq⟩
  · have hlen : p.length < 8 := hI ▸ length_lt_of_strict_prefix p _ h1 h1ne
    have hu := readUInt64_short [] Status.ReadPastEnd (by simp)
    simp only [EditAction.read, readInt64_short p hlen]
    refine ⟨?_, fun h16 => absurd h16 (by omega), fun _ => ?_⟩
    · rw [hu.1]
      exact hu.2.2
    · rw [hu.1]
      rfl
  · rcases prefix_append_cases q _ _ hq with ⟨h2, h2ne⟩ | ⟨q2, rfl, hq2⟩
    · have hlen : q.length < 8 := hC ▸ length_lt_of_strict_prefix q _ h2 h2ne
      have hu := readUInt64_short q Status.Ok hlen
      simp only [EditAction.read, readInt64_writeInt64 _ he.1]
      refine ⟨?_, fun h16 => absurd h16 (by simp only [List.length_append, hI]; omega),
        fun _ => ?_⟩
      · rw [hu.1]
        exact hu.2.2
      · rw [hu.1]
        rfl
    · have hq2ne : q2 ≠ (e.action.map (cA.write [])).flatten := by
        rintro rfl
        exact hne rfl
      simp only [EditAction.read, readInt64_writeInt64 _ he.1,
        readUInt64_writeUInt64 _ he.2]
      refine ⟨readElements_truncated cA hA _ _ hq2 hq2ne,
        fun _ => ⟨trivial, readElements_length cA _ _⟩,
        fun h16 => absurd h16 (by simp only [List.length_append, hI, hC]; omega)⟩

theorem EditAction_count_prefix (cA : Codec Action) (hA : cA.Lawful) (e : EditAction Action)
    (he : e.Representable) (p : List Byte) (hp : p <+: EditAction.write cA [] e) :
    (p.length < 16 → (readUInt64 (readInt64 ⟨p, Status.Ok⟩).2).1 = 0) ∧
      (16 ≤ p.length → (readUInt64 (readInt64 ⟨p, Status.Ok⟩).2).1 = e.action.length) := by
  rw [EditAction_write_eq cA hA.write_append, List.nil_append] at hp
  have hI : (writeInt64 [] e.idx).length = 8 := by simp [writeInt64, beBytes_length]
  have hC : (writeUInt64 [] e.action.length).length = 8 := by simp [writeUInt64, beBytes_length]
  rcases prefix_append_cases p _ _ hp with ⟨h1, h1ne⟩ | ⟨q, rfl, hq⟩
  · have hlen : p.length < 8 := hI ▸ length_lt_of_strict_prefix p _ h1 h1ne
    have hu := readUInt64_short [] Status.ReadPastEnd (by simp)
    rw [readInt64_short p hlen]
    exact ⟨fun _ => hu.1, fun h16 => absurd h16 (by omega)⟩
  · rcases prefix_append_cases q _ _ hq with ⟨h2, h2ne⟩ | ⟨q2, rfl, _⟩
    · have hlen : q.length < 8 := hC ▸ length_lt_of_strict_prefix q _ h2 h2ne
      have hu := readUInt64_short q Status.Ok hlen
      rw [readInt64_writeInt64 _ he.1]
      exact ⟨fun _ => hu.1,
        fun h16 => absurd h16 (by simp only [List.length_append, hI]; omega)⟩
    · rw [readInt64_writeInt64 _ he.1, readUInt64_writeUInt64 _ he.2]
      exact ⟨fun h16 => absurd h16 (by simp only [List.length_append, hI, hC]; omega),
        fun _ => rfl⟩

theorem EditAction_readOrThrow_eq (al : Allocator) (cA : Codec Action) (s : QDataStream) :
    EditAction.readOrThrow al cA s =
      match al.resize (readUInt64 (readInt64 s).2).1 with
      | .error e => .error e
      | .ok _ => .ok (EditAction.read cA s) := by
  unfold EditAction.readOrThrow EditAction.read
  simp only []

theorem resize_ok (al : Allocator) (size : Nat) (h1 : size ≤ al.max_size)
    (h2 : size ≤ al.available) : al.resize size = .ok () := by
  simp [Allocator.resize, Nat.not_lt.mpr h1, Nat.not_lt.mpr h2]

/-- Claim C8, as the code has it.  On a buffer that is a proper prefix of the encoding of
an EditAction, `in >> EditAction` does one of two things.  When the buffer ends inside
idx or the count, the count reads as 0 and the operator returns with an empty vector
and the stream status set to an error.  When idx and the count n are complete (16 bytes
or more), `r.action.resize(n)` is called with the count as read: if n is within
max_size() and the storage can be allocated, the operator returns with the stream
status set to an error, the encoded idx and a vector of n elements; if n is above
max_size() it throws std::length_error, and if the storage cannot be allocated it
throws std::bad_alloc, and no EditAction is returned.  The status and the exception
are the only reports of the truncation. -/
theorem EditAction_read_truncated (al : Allocator) (cA : Codec Action) (hA : cA.Lawful)
    (e : EditAction Action) (he : e.Representable) (p : List Byte)
    (hp : p <+: EditAction.write cA [] e) (hne : p ≠ EditAction.write cA [] e) :
    (p.length < 16 → ∃ r, EditAction.readOrThrow al cA ⟨p, Status.Ok⟩ = .ok r ∧
        r.2.status ≠ Status.Ok ∧ r.1.action = []) ∧
      (16 ≤ p.length → e.action.length ≤ al.max_size → e.action.length ≤ al.available →
        ∃ r, EditAction.readOrThrow al cA ⟨p, Status.Ok⟩ = .ok r ∧
          r.2.status ≠ Status.Ok ∧ r.1.idx = e.idx ∧ r.1.action.length = e.action.length) ∧
      (16 ≤ p.length → al.max_size < e.action.length →
        EditAction.readOrThrow al cA ⟨p, Status.Ok⟩ = .error .length_error) ∧
      (16 ≤ p.length → e.action.length ≤ al.max_size → al.available < e.action.length →
        EditAction.readOrThrow al cA ⟨p, Status.Ok⟩ = .error .bad_alloc) := by
  obtain ⟨hst, hfull, hshort⟩ := EditAction_read_prefix cA hA e he p hp hne
  obtain ⟨hc0, hcn⟩ := EditAction_count_prefix cA hA e he p hp
  refine ⟨fun h => ?_, fun h h1 h2 => ?_, fun h h1 => ?_, fun h h1 h2 => ?_⟩
  · refine ⟨EditAction.read cA ⟨p, Status.Ok⟩, ?_, hst, hshort h⟩
    rw [EditAction_readOrThrow_eq, hc0 h, resize_ok al 0 (Nat.zero_le _) (Nat.zero_le _)]
  · refine ⟨EditAction.read cA ⟨p, Status.Ok⟩, ?_, hst, (hfull h).1, (hfull h).2⟩
    rw [EditAction_readOrThrow_eq, hcn h, resize_ok al _ h1 h2]
  · rw [EditAction_readOrThrow_eq, hcn h]
    simp [Allocator.resize, h1]
  · rw [EditAction_readOrThrow_eq, hcn h]
    simp [Allocator.resize, Nat.not_lt.mpr h1, h2]

/-- Claim C8 fails as stated: from sixteen bytes that announce two Actions and hold none,
`in >> EditAction` returns an EditAction with two elements, neither of them read from
the input; only the stream status says ReadPastEnd. -/
theorem EditAction_read_truncated_yields_elements :
    truncatedEditBytes.length = 16 ∧
      EditAction.read byteCodec ⟨truncatedEditBytes, Status.Ok⟩ =
        (⟨5, [0, 0]⟩, ⟨[], Status.ReadPastEnd⟩) ∧
      EditAction.readOrThrow sampleAllocator byteCodec ⟨truncatedEditBytes, Status.Ok⟩ =
        .ok (⟨5, [0, 0]⟩, ⟨[], Status.ReadPastEnd⟩) := by
  refine ⟨by decide, by decide, rfl⟩

/-- Claim C8 (as the code has it) at the EditAction `{idx 5, actions [1, 2]}` cut off
after its first action, where resize returns, and at sixteen bytes that announce 2^62
Actions, where resize throws std::length_error. -/
theorem EditAction_read_truncated_witness :
    (⟨5, [1, 2]⟩ : EditAction Byte).Representable ∧
      (truncatedEditBytes ++ [1]) <+: EditAction.write byteCodec [] ⟨5, [1, 2]⟩ ∧
      truncatedEditBytes ++ [1] ≠ EditAction.write byteCodec [] ⟨5, [1, 2]⟩ ∧
      (∃ r, EditAction.readOrThrow sampleAllocator byteCodec
          ⟨truncatedEditBytes ++ [1], Status.Ok⟩ = .ok r ∧
        r.2.status ≠ Status.Ok ∧ r.1.idx = 5 ∧ r.1.action.length = 2) ∧
      EditAction.readOrThrow ⟨2 ^ 60, 1⟩ byteCodec ⟨truncatedEditBytes ++ [1], Status.Ok⟩ =
        .error .bad_alloc ∧
      EditAction.readOrThrow sampleAllocator byteCodec ⟨hugeCountBytes, Status.Ok⟩ =
        .error .length_error :=
  have he : (⟨5, [1, 2]⟩ : EditAction Byte).Representable := by
    simp [EditAction.Representable, isInt64]
  have hp : (truncatedEditBytes ++ [1]) <+: EditAction.write byteCodec [] ⟨5, [1, 2]⟩ :=
    ⟨[2], by decide⟩
  have hne : truncatedEditBytes ++ [1] ≠ EditAction.write byteCodec [] ⟨5, [1, 2]⟩ := by
    decide
  have h := EditAction_read_truncated sampleAllocator byteCodec byteCodec_lawful ⟨5, [1, 2]⟩
    he _ hp hne
  have h1 := EditAction_read_truncated ⟨2 ^ 60, 1⟩ byteCodec byteCodec_lawful ⟨5, [1, 2]⟩
    he _ hp hne
  ⟨he, hp, hne, h.2.1 (by decide) (by decide) (by decide),
    h1.2.2.2 (by decide) (by decide) (by decide), rfl⟩

end Wire

/-! ## The claims on the sequencing server -/

section ServerProofs

variable {α : Type}

theorem endsDisconnected_singleton (s : ServerSession α) :
    endsDisconnected [s] = !s.isConnected := rfl

theorem endsDisconnected_cons_cons (s r : ServerSession α) (l : List (ServerSession α)) :
    endsDisconnected (s :: r :: l) = endsDisconnected (r :: l) := by
  simp [endsDisconnected, List.getLast?_cons_cons]

theorem endsDisconnected_cons_of_connected (s : ServerSession α) (l : List (ServerSession α))
    (h : s.isConnected = true) : endsDisconnected (s :: l) = endsDisconnected l := by
  cases l with
  | nil => simp [endsDisconnected, h]
  | cons r l => exact endsDisconnected_cons_cons s r l

theorem broadcastLoop_skip (action : α) (fuel : Nat) (before : List (ServerSession α))
    (s r : ServerSession α) (l : List (ServerSession α)) (sent : Nat)
    (h : s.isConnected = false) :
    broadcastLoop action (fuel + 1) before (s :: r :: l) sent =
      broadcastLoop action (fuel + 1) before (r :: l) sent := by
  simp only [broadcastLoop]
  rw [show whileDisconnected (s :: r :: l) = whileDisconnected (r :: l) by
    simp [whileDisconnected, h]]

theorem broadcastLoop_eq (action : α) (todo : List (ServerSession α)) :
    ∀ (fuel : Nat) (before : List (ServerSession α)) (sent : Nat), todo.length ≤ fuel →
      broadcastLoop action fuel before todo sent =
        if endsDisconnected todo then .error .endDereferenced
        else .ok (before ++ (todo.filter (·.isConnected)).map (·.writeRemoteAction action),
          sent + (todo.filter (·.isConnected)).length) := by
  induction todo with
  | nil =>
    intro fuel before sent _
    cases fuel <;> simp [broadcastLoop, endsDisconnected]
  | cons s rest ih =>
    intro fuel before sent hfuel
    obtain ⟨f, rfl⟩ : ∃ f, fuel = f + 1 := ⟨fuel - 1, by simp at hfuel; omega⟩
    have hf : rest.length ≤ f := by simp at hfuel; omega
    cases hs : s.isConnected with
    | true =>
      have hw : whileDisconnected (s :: rest) = .ok (s :: rest) := by
        simp [whileDisconnected, hs]
      simp only [broadcastLoop, hw]
      rw [ih f _ _ hf, endsDisconnected_cons_of_connected s rest hs]
      simp [List.filter_cons, hs, List.append_assoc, Nat.add_assoc, Nat.add_comm 1]
    | false =>
      cases rest with
      | nil =>
        simp [broadcastLoop, whileDisconnected, hs, endsDisconnected_singleton]
      | cons r l =>
        rw [broadcastLoop_skip action f before s r l sent hs, ih (f + 1) before sent (by omega),
          endsDisconnected_cons_cons]
        simp [List.filter_cons, hs]

theorem broadcastMessage_eq (st : SequencingServer α) (action : α) :
    st.broadcastMessage action =
      if endsDisconnected st.m_sessions then .error .endDereferenced
      else .ok { st with m_sessions :=
        (st.m_sessions.filter (·.isConnected)).map (·.writeRemoteAction action) } := by
  unfold SequencingServer.broadcastMessage
  rw [broadcastLoop_eq action st.m_sessions _ [] 0 le_rfl]
  cases endsDisconnected st.m_sessions <;> simp

theorem sentCount_eq (st : SequencingServer α) (action : α) :
    st.sentCount action =
      if endsDisconnected st.m_sessions then none
      else some (st.m_sessions.filter (·.isConnected)).length := by
  unfold SequencingServer.sentCount
  rw [broadcastLoop_eq action st.m_sessions _ [] 0 le_rfl]
  cases endsDisconnected st.m_sessions <;> simp

/-- Claim C2 at a failing input.  With the sessions `[0 live, 1 dead]` the pass writes to
session 0, erases session 1, and then evaluates the loop condition `(*it)->isConnected()`
with `it` at `end()`: the broadcast has no defined outcome. -/
theorem broadcastMessage_last_left :
    serverLastLeft.m_sessions.map (·.isConnected) = [true, false] ∧
      whileDisconnected [deadSession 1] = .error .endDereferenced ∧
      serverLastLeft.broadcastMessage sampleEdit = .error .endDereferenced := by
  refine ⟨by decide, rfl, rfl⟩

/-- Claim C3 at a failing input.  With the dead session 0 as the only session, the pass
erases it and then dereferences `end()`; there is no list of sessions afterwards. -/
theorem broadcastMessage_all_left :
    serverAllLeft.m_sessions.map (·.isConnected) = [false] ∧
      serverAllLeft.broadcastMessage sampleEdit = .error .endDereferenced := by
  refine ⟨by decide, rfl⟩

/-- Delivery when the pass is defined: for every list of sessions that does not end in a
disconnected one, broadcastMessage completes, m_sessions afterwards is the list of the
sessions that were connected, in their order, each after one writeRemoteAction call
with the action, and the count `sent` is their number. -/
theorem broadcastMessage_delivers (st : SequencingServer α) (action : α)
    (h : endsDisconnected st.m_sessions = false) :
    st.broadcastMessage action = .ok { st with m_sessions :=
        (st.m_sessions.filter (·.isConnected)).map (·.writeRemoteAction action) } ∧
      st.sentCount action = some (st.m_sessions.filter (·.isConnected)).length := by
  rw [broadcastMessage_eq, sentCount_eq, h]
  simp

/-- Delivery at `serverFirstLeft`: sessions 1 and 2 each get the envelope once, session 0
is gone. -/
theorem broadcastMessage_delivers_witness :
    endsDisconnected serverFirstLeft.m_sessions = false ∧
      serverFirstLeft.broadcastMessage sampleEdit = .ok { serverFirstLeft with m_sessions :=
        [(liveSession 1).writeRemoteAction sampleEdit,
          (liveSession 2).writeRemoteAction sampleEdit] } ∧
      serverFirstLeft.sentCount sampleEdit = some 2 :=
  have h := broadcastMessage_delivers serverFirstLeft sampleEdit (by decide)
  ⟨by decide, h.1, h.2⟩

/-- Claim C4, as the code has it.  broadcastMessage does not touch m_history: whenever
the pass completes (the list does not end in a disconnected session) the history
afterwards is the history before, with nothing appended. -/
theorem broadcastMessage_keeps_history (st : SequencingServer α) (action : α)
    (h : endsDisconnected st.m_sessions = false) :
    ∃ st', st.broadcastMessage action = .ok st' ∧ st'.m_history = st.m_history := by
  rw [broadcastMessage_eq, h]
  exact ⟨_, rfl, rfl⟩

/-- Claim C4 fails as stated: after the broadcast of an envelope that shouldBeRecorded
accepts, on a server with an empty history, the history is still empty. -/
theorem broadcastMessage_appends_nothing :
    sampleEdit.shouldBeRecorded = true ∧
      ∃ st', (SequencingServer.init.newClient).broadcastMessage sampleEdit = .ok st' ∧
        st'.m_history = [] ∧
        st'.m_history ≠ (SequencingServer.init.newClient).m_history ++ [sampleEdit] :=
  ⟨rfl, _, rfl, rfl, by decide⟩

/-- Claim C4 (as the code has it) on a server with one recorded envelope and sessions
`[0 dead, 1 live]`. -/
theorem broadcastMessage_keeps_history_witness :
    ∃ st', (⟨[deadSession 0, liveSession 1], [sampleEditState], 2⟩ :
        SequencingServer Envelope).broadcastMessage sampleEdit = .ok st' ∧
      st'.m_history = [sampleEditState] :=
  broadcastMessage_keeps_history ⟨[deadSession 0, liveSession 1], [sampleEditState], 2⟩
    sampleEdit (by decide)

theorem all_connected_not_endsDisconnected (l : List (ServerSession α))
    (h : ∀ s ∈ l, s.isConnected = true) : endsDisconnected l = false := by
  unfold endsDisconnected
  cases hl : l.getLast? with
  | none => rfl
  | some s => simp [h s (List.mem_of_getLast?_eq_some hl)]

/-- Pruning is idempotent: after a completed pass in which no write failed, a second
pass completes too, removes no session and writes to every session that is left. -/
theorem broadcastMessage_second_pass (st : SequencingServer α) (action next : α)
    (h : endsDisconnected st.m_sessions = false)
    (hw : ∀ s ∈ st.m_sessions, s.writeFails = false) :
    ∃ st' st'', st.broadcastMessage action = .ok st' ∧
      st'.m_sessions.map (·.uid) = (st.m_sessions.filter (·.isConnected)).map (·.uid) ∧
      st'.broadcastMessage next = .ok st'' ∧
      st''.m_sessions = st'.m_sessions.map (·.writeRemoteAction next) := by
  have hc : ∀ s ∈ (st.m_sessions.filter (·.isConnected)).map (·.writeRemoteAction action),
      s.isConnected = true := by
    intro s hs
    obtain ⟨t, ht, rfl⟩ := List.mem_map.mp hs
    obtain ⟨htm, htc⟩ := List.mem_filter.mp ht
    have hc' : t.connected = true := htc
    simp [ServerSession.isConnected, ServerSession.writeRemoteAction, hw t htm, hc']
  have h1 := broadcastMessage_eq st action
  rw [h] at h1
  simp only [Bool.false_eq_true, if_false] at h1
  have h2 := broadcastMessage_eq { st with m_sessions :=
    (st.m_sessions.filter (·.isConnected)).map (·.writeRemoteAction action) } next
  simp only [all_connected_not_endsDisconnected _ hc, List.filter_eq_self.mpr hc,
    Bool.false_eq_true, if_false] at h2
  refine ⟨_, _, h1, ?_, h2, rfl⟩
  simp [List.map_map, Function.comp_def, ServerSession.writeRemoteAction]

/-- Second pass at `serverFirstLeft`: sessions 1 and 2 survive both passes. -/
theorem broadcastMessage_second_pass_witness :
    ∃ st' st'', serverFirstLeft.broadcastMessage sampleEdit = .ok st' ∧
      st'.m_sessions.map (·.uid) = [1, 2] ∧
      st'.broadcastMessage sampleEditState = .ok st'' ∧
      st''.m_sessions = st'.m_sessions.map (·.writeRemoteAction sampleEditState) :=
  broadcastMessage_second_pass serverFirstLeft sampleEdit sampleEditState (by decide)
    (by decide)

theorem step_next_uid (st st' : SequencingServer α) (ev : Event α) (h : st.step ev = .ok st') :
    st'.m_next_uid = st.m_next_uid + (match ev with | .newClient => 1 | _ => 0) := by
  cases ev with
  | newClient =>
    simp only [SequencingServer.step, Except.ok.injEq] at h
    subst h
    rfl
  | broadcastMessage action =>
    simp only [SequencingServer.step, broadcastMessage_eq] at h
    split at h
    · cases h
    · simp only [Except.ok.injEq] at h
      subst h
      rfl
  | transportClosed uid =>
    simp only [SequencingServer.step, Except.ok.injEq] at h
    subst h
    rfl
  | transportBroken uid =>
    simp only [SequencingServer.step, Except.ok.injEq] at h
    subst h
    rfl

theorem constructedUids_eq (evs : List (Event α)) :
    ∀ st : SequencingServer α,
      st.constructedUids evs = List.range' st.m_next_uid (st.constructedUids evs).length ∧
        ∀ st', st.run evs = .ok st' →
          (st.constructedUids evs).length = newClientCalls evs ∧
            st'.m_next_uid = st.m_next_uid + newClientCalls evs := by
  induction evs with
  | nil =>
    intro st
    refine ⟨rfl, fun st' h => ?_⟩
    simp only [SequencingServer.run, Except.ok.injEq] at h
    subst h
    exact ⟨rfl, rfl⟩
  | cons ev evs ih =>
    intro st
    cases hstep : st.step ev with
    | error e =>
      refine ⟨by simp [SequencingServer.constructedUids, hstep], fun st' h => ?_⟩
      simp [SequencingServer.run, hstep] at h
    | ok st1 =>
      have hu := step_next_uid st st1 ev hstep
      obtain ⟨ih1, ih2⟩ := ih st1
      cases ev with
      | newClient =>
        simp only at hu
        refine ⟨?_, fun st' h => ?_⟩
        · simp only [SequencingServer.constructedUids, hstep, List.length_cons, List.range'_succ]
          rw [← hu, ← ih1]
          rfl
        · simp only [SequencingServer.run, hstep] at h
          obtain ⟨h1, h2⟩ := ih2 st' h
          simp only [SequencingServer.constructedUids, hstep, List.length_cons, newClientCalls]
          omega
      | broadcastMessage action =>
        simp only [Nat.add_zero] at hu
        refine ⟨?_, fun st' h => ?_⟩
        · simp only [SequencingServer.constructedUids, hstep]
          rw [← hu]
          exact ih1
        · simp only [SequencingServer.run, hstep] at h
          obtain ⟨h1, h2⟩ := ih2 st' h
          simp only [SequencingServer.constructedUids, hstep, newClientCalls]
          omega
      | transportClosed uid =>
        simp only [Nat.add_zero] at hu
        refine ⟨?_, fun st' h => ?_⟩
        · simp only [SequencingServer.constructedUids, hstep]
          rw [← hu]
          exact ih1
        · simp only [SequencingServer.run, hstep] at h
          obtain ⟨h1, h2⟩ := ih2 st' h
          simp only [SequencingServer.constructedUids, hstep, newClientCalls]
          omega
      | transportBroken uid =>
        simp only [Nat.add_zero] at hu
        refine ⟨?_, fun st' h => ?_⟩
        · simp only [SequencingServer.constructedUids, hstep]
          rw [← hu]
          exact ih1
        · simp only [SequencingServer.run, hstep] at h
          obtain ⟨h1, h2⟩ := ih2 st' h
          simp only [SequencingServer.constructedUids, hstep, newClientCalls]
          omega

/-- Claim C6.  From a freshly constructed server and for every sequence of accepts,
broadcasts (pruning or not) and transport failures, the n-th newClient call, counting
from 0, constructs its session with uid n: the uids handed out are 0, 1, 2, ... in
accept order, hence strictly increasing and pairwise distinct, so that the uid of a
pruned session is never handed out again; a run that completes has handed out one uid
per newClient call and leaves m_next_uid at their number. -/
theorem uid_allocation (evs : List (Event α)) :
    (SequencingServer.init (α := α)).constructedUids evs =
        List.range ((SequencingServer.init (α := α)).constructedUids evs).length ∧
      ((SequencingServer.init (α := α)).constructedUids evs).Pairwise (· < ·) ∧
      ((SequencingServer.init (α := α)).constructedUids evs).Nodup ∧
      ∀ st', (SequencingServer.init (α := α)).run evs = .ok st' →
        ((SequencingServer.init (α := α)).constructedUids evs).length = newClientCalls evs ∧
          st'.m_next_uid = newClientCalls evs := by
  obtain ⟨h1, h2⟩ := constructedUids_eq evs (SequencingServer.init (α := α))
  have h0 : (SequencingServer.init (α := α)).m_next_uid = 0 := rfl
  rw [h0, ← List.range_eq_range'] at h1
  refine ⟨h1, ?_, ?_, fun st' h => ?_⟩
  · rw [h1]
    exact List.pairwise_lt_range _
  · rw [h1]
    exact List.nodup_range _
  · have := h2 st' h
    rw [h0] at this
    omega

/-- Claim C6 at `sampleRun`: the client accepted after session 0 was pruned gets uid 2. -/
theorem uid_allocation_sampleRun :
    (SequencingServer.init (α := Envelope)).constructedUids sampleRun = [0, 1, 2] ∧
      ((SequencingServer.init (α := Envelope)).run sampleRun).toOption.map
        (fun st => st.m_sessions.map (·.uid)) = some [1, 2] :=
  ⟨(uid_allocation sampleRun).1.trans (by decide), by decide⟩

end ServerProofs

/-! ## The end iterator in broadcastMessage -/

/-- Claim C11 at a failing input.  With the sessions `[0 dead, 1 live, 2 dead]` the pass
erases session 0, writes to session 1, erases session 2 and then evaluates the loop
condition `(*it)->isConnected()` with `it` at `end()`; on the empty list the pass is
safe. -/
theorem broadcastMessage_ends_left :
    serverEndsLeft.m_sessions.map (·.isConnected) = [false, true, false] ∧
      whileDisconnected [deadSession 2] = .error .endDereferenced ∧
      serverEndsLeft.broadcastMessage sampleEdit = .error .endDereferenced ∧
      (SequencingServer.init (α := Envelope)).broadcastMessage sampleEdit =
        .ok SequencingServer.init := by
  refine ⟨by decide, rfl, rfl, rfl⟩

/-- The pass dereferences the end iterator exactly on the lists that are not empty and
whose last session is disconnected; on every other list it completes. -/
theorem broadcastMessage_end_dereferenced_iff {α : Type} (st : SequencingServer α)
    (action : α) :
    (st.broadcastMessage action = .error .endDereferenced ↔
        endsDisconnected st.m_sessions = true) ∧
      (endsDisconnected st.m_sessions = false ↔ ∃ st', st.broadcastMessage action = .ok st') := by
  rw [broadcastMessage_eq]
  cases endsDisconnected st.m_sessions <;> simp

/-! ## The claims on the keyboard editor -/

theorem clamp_zero_max (v : Int) : clamp v 0 EVENTMAX_VELOCITY = max v 0 := by
  unfold clamp EVENTMAX_VELOCITY
  split
  · omega
  · rw [if_neg (by decide)]
    omega

/-- What impliedVelocity computes: the dragged velocity when that is positive and 0
otherwise, so the result is never negative and is bounded above only by the drag. -/
theorem impliedVelocity_eq_max (d : Int) (state : MouseEditState) :
    impliedVelocity d state = max (draggedVelocity d state) 0 ∧ 0 ≤ impliedVelocity d state := by
  unfold impliedVelocity
  rw [clamp_zero_max]
  exact ⟨rfl, le_max_right _ _⟩

/-- Claim C12 at a failing input.  With EVENTDEFAULT_VELOCITY = 104 and a drag 2400
pitch units up, impliedVelocity returns 129, above EVENTMAX_VELOCITY; and whatever the
value of EVENTDEFAULT_VELOCITY, some drag takes the result above EVENTMAX_VELOCITY. -/
theorem impliedVelocity_above_max :
    draggedVelocity 104 dragUp = 129 ∧
      impliedVelocity 104 dragUp = 129 ∧
      ¬ impliedVelocity 104 dragUp ≤ EVENTMAX_VELOCITY ∧
      ∀ d : Int, ∃ state, EVENTMAX_VELOCITY < impliedVelocity d state := by
  refine ⟨by decide, by decide, by decide, fun d => ?_⟩
  by_cases hd : 128 < d
  · refine ⟨⟨.SetOn, 0, 0, 0, 0⟩, ?_⟩
    have hv : draggedVelocity d ⟨.SetOn, 0, 0, 0, 0⟩ = d := by
      simp [draggedVelocity, pitchPerPx, pixelsPerVelocity]
    unfold impliedVelocity
    rw [clamp_zero_max, hv]
    unfold EVENTMAX_VELOCITY
    omega
  · refine ⟨⟨.SetOn, 0, 0, 0, 32 * (3 * (129 - d))⟩, ?_⟩
    have hv : draggedVelocity d ⟨.SetOn, 0, 0, 0, 32 * (3 * (129 - d))⟩ = 129 := by
      simp only [draggedVelocity, pitchPerPx, pixelsPerVelocity, sub_zero]
      rw [Int.mul_tdiv_cancel_left _ (by decide), Int.mul_tdiv_cancel_left _ (by decide)]
      omega
    unfold impliedVelocity
    rw [clamp_zero_max, hv]
    decide

/-- Claim C13 at a failing input.  With repeat_clock = 1920, last_clock = 7680 and the
raw clock 8000 the modulo leaves the clock at 8000, past last_clock. -/
theorem wrapClock_past_last :
    (0 : Int) ≤ 1920 ∧ (1920 : Int) < 7680 ∧ (1920 : Int) < 8000 ∧
      wrapClock 8000 1920 7680 = some 8000 ∧ ¬ (8000 : Int) < 7680 := by
  decide

/-- What the wrap-around guarantees: for 0 <= repeat_clock < last_clock and a raw clock
above repeat_clock the modulo has a non-zero divisor and the wrapped clock lies in
repeat_clock <= wrapped < repeat_clock + last_clock; it is the raw clock itself while
that is below last_clock, and below last_clock whenever repeat_clock is 0. -/
theorem wrapClock_range (clock repeat_clock last_clock : Int) (h0 : 0 ≤ repeat_clock)
    (h1 : repeat_clock < last_clock) (h2 : repeat_clock < clock) :
    ∃ w, wrapClock clock repeat_clock last_clock = some w ∧
      repeat_clock ≤ w ∧ w < repeat_clock + last_clock ∧
      (clock < last_clock → w = clock) ∧ (repeat_clock = 0 → w < last_clock) := by
  have hl : last_clock ≠ 0 := by omega
  have hm := Int.tmod_eq_emod (a := clock - repeat_clock) (b := last_clock) (by omega) (by omega)
  have hlo := Int.emod_nonneg (clock - repeat_clock) hl
  have hhi := Int.emod_lt_of_pos (clock - repeat_clock) (b := last_clock) (by omega)
  refine ⟨(clock - repeat_clock).tmod last_clock + repeat_clock, ?_, ?_, ?_, ?_, ?_⟩
  · simp [wrapClock, h2, hl]
  · omega
  · omega
  · intro hc
    rw [hm, Int.emod_eq_of_lt (by omega) (by omega)]
    omega
  · intro hr
    omega

/-- The wrap-around at repeat_clock = 1920, last_clock = 7680 and the raw clock 17000. -/
theorem wrapClock_range_witness :
    ∃ w, wrapClock 17000 1920 7680 = some w ∧ 1920 ≤ w ∧ w < 1920 + 7680 ∧
      ((17000 : Int) < 7680 → w = 17000) ∧ ((1920 : Int) = 0 → w < 7680) :=
  wrapClock_range 17000 1920 7680 (by decide) (by decide) (by decide)

end PtCollab
